import Mathlib

/-!
Verification of the topo-mcp code-indexing core against its design
specification.  The development shallowly embeds the two algorithmic
components of the repository:

* the gitignore-style path matcher (`gitignore` package: the `pattern`
  data, `pattern.matches`, `matchGlob`, `matchSimpleGlob`,
  `matchDoublestar`, `Matcher.matchPath`, `Matcher.Match`), and
* the output-budget planner (`tools` package, `codemap.go`:
  `fileLineCount`, `buildDirTree`, `calculateLines`, `pruneToLimit`,
  `findLargestLeaf`, `pruneFilesToLimit`, `collectFiles`,
  `FormatCodemap`'s limit handling).

Go strings are modelled as `List Char` (written `"…".data`); byte
indexing in the source is modelled as character indexing, which agrees
on ASCII input.  Go `int` is modelled as `Int`.  Go maps
`map[string]*dirNode` are modelled as association lists whose order
stands for the map's (unspecified) iteration order.  Loops are modelled
either structurally or with an explicit fuel argument whose sufficiency
is discussed at the definition; every fuel-exhaustion branch is
unreachable for the fuel actually supplied.

The Go standard-library string helpers used by the source
(strings.Split, strings.HasPrefix, strings.TrimPrefix,
strings.TrimSuffix, strings.Join, strings.Contains) are given explicit
structural models first, so that every definition evaluates inside the
kernel.
-/

/-! ## Models of the Go strings package on char lists -/

/-- Model of Go strings.HasPrefix on char lists. -/
def hasPrefixStr (s pre : List Char) : Bool :=
  pre.isPrefixOf s

/-- Model of Go strings.HasSuffix on char lists. -/
def hasSuffixStr (s suf : List Char) : Bool :=
  suf.isSuffixOf s

/-- Model of Go strings.TrimPrefix: removes pre from the start of s if
present. -/
def trimPrefixStr (s pre : List Char) : List Char :=
  if hasPrefixStr s pre then s.drop pre.length else s

/-- Model of Go strings.TrimSuffix: removes suf from the end of s if
present. -/
def trimSuffixStr (s suf : List Char) : List Char :=
  if hasSuffixStr s suf then s.take (s.length - suf.length) else s

/-- Worker for `splitOnStr`.  The fuel dominates the length of the text
still to scan, and every step consumes at least one character (the
separator is non-empty), so the branch for exhausted fuel is
unreachable. -/
def splitOnAuxStr (sep : List Char) : Nat → List Char → List (List Char)
  | _, [] => [[]]
  | 0, s => [s]
  | fuel+1, c :: cs =>
    if sep.isPrefixOf (c :: cs) then
      [] :: splitOnAuxStr sep fuel ((c :: cs).drop sep.length)
    else
      match splitOnAuxStr sep fuel cs with
      | [] => [[c]]
      | r :: rs => (c :: r) :: rs

/-- Model of Go strings.Split (and of String.splitOn): cuts s at every
non-overlapping occurrence of sep, scanning left to right.  For empty
sep Go splits between every character; the source never does that, and
the model returns [s] in that unused case. -/
def splitOnStr (s sep : List Char) : List (List Char) :=
  if sep.isEmpty then [s] else splitOnAuxStr sep s.length s

/-- Model of Go strings.Join with the list/separator argument order of
List.intercalate. -/
def joinStr (sep : List Char) (parts : List (List Char)) : List Char :=
  List.intercalate sep parts

/-- Model of Go strings.Contains for the non-empty needles the source
uses: s contains sub iff splitting on sub produces more than one part. -/
def containsStr (s sub : List Char) : Bool :=
  (splitOnStr s sub).length != 1

/-- Lexicographic comparison of char lists; agrees with Go string
comparison on ASCII (and in fact on all of UTF-8, whose byte order
coincides with code-point order). -/
def strLe : List Char → List Char → Bool
  | [], _ => true
  | _ :: _, [] => false
  | a :: as, b :: bs => if a = b then strLe as bs else decide (a < b)

/-! ## matchSimpleGlob (gitignore section of codemap.go)

The Go function is an iterative greedy automaton over indices `px, nx`
with backtrack registers `starPx, starNx` (initially -1).  It is
transliterated below with the state as explicit arguments and a fuel
argument standing for the loop counter.  Every iteration of the Go loop
strictly decreases the lexicographic measure
(len(name) - starNx, len(name) - nx, len(pattern) - px)
(the invariant starNx ≤ nx holds throughout), so the number of
iterations is below (len(name)+2)·(len(name)+2)·(len(pattern)+2), which
is the fuel `matchSimpleGlob` supplies; the fuel-exhaustion branch is
unreachable.  The Go code reaches the backtrack block from three places
via goto; the block is inlined at each of them here. -/

def globLoop (p n : List Char) : Nat → Nat → Nat → Int → Int → Bool
  | 0, _, _, _, _ => false
  | fuel+1, px, nx, starPx, starNx =>
    if nx < n.length then
      match p[px]? with
      | some '*' =>
        -- remember this position for backtracking
        globLoop p n fuel (px+1) nx (Int.ofNat px) (Int.ofNat nx)
      | some '?' =>
        -- match any single character except /
        if n[nx]? = some '/' then
          (if 0 ≤ starPx ∧ starNx < (n.length : Int) ∧ ¬ n[starNx.toNat]? = some '/' then
             globLoop p n fuel (starPx + 1).toNat (starNx + 1).toNat starPx (starNx + 1)
           else false)
        else globLoop p n fuel (px+1) (nx+1) starPx starNx
      | some c =>
        if n[nx]? = some c then globLoop p n fuel (px+1) (nx+1) starPx starNx
        else
          (if 0 ≤ starPx ∧ starNx < (n.length : Int) ∧ ¬ n[starNx.toNat]? = some '/' then
             globLoop p n fuel (starPx + 1).toNat (starNx + 1).toNat starPx (starNx + 1)
           else false)
      | none =>
        (if 0 ≤ starPx ∧ starNx < (n.length : Int) ∧ ¬ n[starNx.toNat]? = some '/' then
           globLoop p n fuel (starPx + 1).toNat (starNx + 1).toNat starPx (starNx + 1)
         else false)
    else
      -- skip trailing *s in pattern, then require px = len(pattern):
      -- equivalently, every remaining pattern character is a star
      (p.drop px).all (fun c => c == '*')

/-- Model of matchSimpleGlob: matches patterns with * and ? but not **. -/
def matchSimpleGlob (pat name : List Char) : Bool :=
  globLoop pat name ((name.length + 2) * (name.length + 2) * (pat.length + 2)) 0 0 (-1) (-1)

/-! ## matchDoublestar and friends -/

/-- Model of Go hasPrefix (the glob-aware prefix check used by
matchDoublestarRecursive). -/
def hasPrefixGlob (name pre : List Char) : Bool :=
  if name.length < pre.length then matchSimpleGlob pre name
  else
    matchSimpleGlob pre (name.take pre.length) ||
      (decide (name.length > pre.length) && name[pre.length]? = some '/' &&
        matchSimpleGlob pre (name.take pre.length))

/-- Model of matchDoublestarRecursive, for patterns with several `**`
groups.  strings.Index(pattern, "**") == -1 corresponds to splitting on
"**" producing a single part; otherwise the part before the first
occurrence is the prefix and the remaining parts rejoined with "**" are
the text after it.  The fuel bounds the recursion depth: every recursive
call passes suf, which is at least two characters shorter than pat, so
pat.length + 1 fuel (supplied by matchDoublestar below) is ample. -/
def matchDoublestarRecursive : Nat → List Char → List Char → Bool
  | 0, _, _ => false
  | fuel+1, pat, name =>
    match splitOnStr pat "**".data with
    | [] => matchSimpleGlob pat name
    | [_] => matchSimpleGlob pat name
    | pre :: rest =>
      let suf := trimPrefixStr (joinStr "**".data rest) "/".data
      let name' :=
        if pre ≠ [] then
          let pre' := trimSuffixStr pre "/".data
          if ¬ hasPrefixGlob name pre' then none
          else some (trimPrefixStr (trimPrefixStr name pre') "/".data)
        else some name
      match name' with
      | none => false
      | some n =>
        -- try matching the rest at each level
        if matchDoublestarRecursive fuel suf n then true
        else
          let parts := splitOnStr n "/".data
          (List.range parts.length).any fun i =>
            matchDoublestarRecursive fuel suf (joinStr "/".data (parts.drop (i+1)))

/-- Model of matchDoublestar: handles patterns containing `**`.  The Go
code splits the pattern on `**`; with exactly two parts it checks a
literal string prefix (strings.HasPrefix) and then tries the suffix
against the remainder and every shorter path-segment suffix of it;
otherwise it falls back to the recursive matcher. -/
def matchDoublestar (pat name : List Char) : Bool :=
  match splitOnStr pat "**".data with
  | [pre, rest] =>
    let suf := trimPrefixStr rest "/".data
    let name' :=
      if pre ≠ [] then
        let pre' := trimSuffixStr pre "/".data
        if ¬ hasPrefixStr name pre' then none
        else some (trimPrefixStr (trimPrefixStr name pre') "/".data)
      else some name
    match name' with
    | none => false
    | some n =>
      if suf = [] then true
      else if matchSimpleGlob suf n then true
      else
        let parts := splitOnStr n "/".data
        (List.range parts.length).any fun i =>
          matchSimpleGlob suf (joinStr "/".data (parts.drop i))
  | _ => matchDoublestarRecursive (pat.length + 1) pat name

/-- Model of matchGlob: glob-style matching with *, ** and ? wildcards. -/
def matchGlob (pat name : List Char) : Bool :=
  if containsStr pat "**".data then matchDoublestar pat name
  else matchSimpleGlob pat name

/-! ## pattern and Matcher -/

/-- Model of the gitignore pattern struct.  The Go field `pattern` is
named `pat` here because a Lean structure field may not shadow the
structure's own name. -/
structure pattern where
  pat : List Char
  negation : Bool
  dirOnly : Bool
  anchored : Bool
  baseDir : List Char
deriving Repr, DecidableEq

/-- Model of (*pattern).matches: does a single pattern match the path? -/
def pattern.matches (p : pattern) (path : List Char) (isDir : Bool) : Bool :=
  -- directory-only patterns do not match files
  if p.dirOnly ∧ ¬ isDir then false
  else
    let path' :=
      if p.baseDir ≠ [] then
        if ¬ hasPrefixStr path (p.baseDir ++ "/".data) then none
        else some (trimPrefixStr path (p.baseDir ++ "/".data))
      else some path
    match path' with
    | none => false
    | some path =>
      if p.anchored then matchGlob p.pat path
      else if matchGlob p.pat path then true
      else
        let parts := splitOnStr path "/".data
        (List.range parts.length).any fun i =>
          matchGlob p.pat (joinStr "/".data (parts.drop i))

/-- Model of the Matcher struct (the root field plays no role in
matching). -/
structure Matcher where
  patterns : List pattern
deriving Repr, DecidableEq

/-- Model of (*Matcher).matchPath: every pattern is consulted in order
and the last matching one decides; its negation flag is inverted into
the outcome. -/
def Matcher.matchPath (m : Matcher) (path : List Char) (isDir : Bool) : Bool :=
  m.patterns.foldl
    (fun ignored p => if p.matches path isDir then !p.negation else ignored)
    false

/-- Model of (*Matcher).Match.  filepath.ToSlash is the identity for the
slash-separated relative paths this development considers.  A nil
matcher is modelled by an empty pattern list. -/
def Matcher.Match (m : Matcher) (path : List Char) (isDir : Bool) : Bool :=
  if m.patterns.length = 0 then false
  else
    let path := trimPrefixStr path "./".data
    let parts := splitOnStr path "/".data
    -- check if any parent directory is ignored (i ranges over 1 .. len(parts)-1)
    if (List.range parts.length).any
        (fun i => decide (1 ≤ i) && m.matchPath (joinStr "/".data (parts.take i)) true) then
      true
    else m.matchPath path isDir

/-! ## parseLine (gitignore section) -/

/-- Trailing-space trimming loop of parseLine, working on the reversed
line: a space preceded by a backslash keeps one space (dropping the
backslash) and stops, any other trailing space is dropped. -/
def trimTrailingRev : List Char → List Char
  | ' ' :: '\\' :: rest => ' ' :: rest
  | ' ' :: rest => trimTrailingRev rest
  | l => l

/-- Trim trailing unescaped spaces, as the loop at the top of parseLine
does. -/
def trimTrailingSpaces (line : List Char) : List Char :=
  (trimTrailingRev line.reverse).reverse

/-- Model of parseLine: parses one ignore-file line into a pattern;
empty lines and comments yield nothing. -/
def parseLine (line : List Char) (baseDir : List Char) : Option pattern :=
  let line := trimTrailingSpaces line
  if line = [] ∨ hasPrefixStr line "#".data then none
  else
    let s1 := if hasPrefixStr line "!".data then (true, line.drop 1) else (false, line)
    let s2 := if hasSuffixStr s1.2 "/".data then (true, trimSuffixStr s1.2 "/".data)
      else (false, s1.2)
    let s3 := if hasPrefixStr s2.2 "/".data then (true, s2.2.drop 1)
      else if containsStr s2.2 "/".data then (true, s2.2) else (false, s2.2)
    some ⟨s3.2, s1.1, s2.1, s3.1, baseDir⟩

/-- The compiled rule set of the scenario exercised by the repository's
matcher test: a root ignore file with build/, dist/, *.log,
!important.log, /root-only.txt, src/generated/, and a pkg/.gitignore
with *.tmp, in discovery order. -/
def gitignoreExample : Matcher :=
  ⟨([parseLine "build/".data [],
     parseLine "dist/".data [],
     parseLine "*.log".data [],
     parseLine "!important.log".data [],
     parseLine "/root-only.txt".data [],
     parseLine "src/generated/".data [],
     parseLine "*.tmp".data "pkg".data]).filterMap id⟩

/-! ## The budget planner (tools package, codemap.go) -/

/-- DefaultLineLimit is the default maximum number of lines in the
codemap output. -/
def DefaultLineLimit : Int := 1000

/-- Model of the tools FileIndex struct: only the path, the number of
symbols (the source reads nothing of a symbol except, in the formatter,
its rendering) and the Truncated flag are relevant to the planner. -/
structure FileIndex where
  path : List Char
  symbols : Nat
  truncated : Bool
deriving Repr, DecidableEq

/-- Model of FormatOptions. -/
structure FormatOptions where
  skipPatterns : List (List Char)
  filter : List Char
  lineLimit : Int
deriving Repr, DecidableEq

/-- Model of matchesFilter: exact file match or directory prefix match. -/
def matchesFilter (filePath filt : List Char) : Bool :=
  let filt := trimPrefixStr filt "./".data
  let fp := trimPrefixStr filePath "./".data
  fp = filt || hasPrefixStr fp (trimSuffixStr filt "/".data ++ "/".data)

/-- Model of isSkipped: does the path match any skip pattern by prefix? -/
def isSkipped (filePath : List Char) (patterns : List (List Char)) : Bool :=
  let fp := trimPrefixStr filePath "./".data
  patterns.any fun pat =>
    let p := trimSuffixStr (trimPrefixStr pat "./".data) "/".data
    fp = p || hasPrefixStr fp (p ++ "/".data)

/-- Model of fileLineCount: 0 for a file without symbols, otherwise
header + symbols + blank line. -/
def fileLineCount (f : FileIndex) : Int :=
  if f.symbols = 0 then 0 else 1 + (f.symbols : Int) + 1

/-- truncatedFileLineCount is the line count for a truncated file
(header + message + blank). -/
def truncatedFileLineCount : Int := 3

/-- Model of the dirNode struct.  The children map map[string]*dirNode is
modelled as a list of nodes (each carrying its own name, the map key);
the list order stands for the map's unspecified iteration order. -/
inductive dirNode : Type where
  | mk (name : List Char) (path : List Char) (files : List FileIndex)
       (children : List dirNode) (lines : Int) (truncated : Bool)

def dirNode.name : dirNode → List Char
  | .mk nm _ _ _ _ _ => nm

def dirNode.path : dirNode → List Char
  | .mk _ p _ _ _ _ => p

def dirNode.files : dirNode → List FileIndex
  | .mk _ _ fs _ _ _ => fs

def dirNode.children : dirNode → List dirNode
  | .mk _ _ _ cs _ _ => cs

def dirNode.lines : dirNode → Int
  | .mk _ _ _ _ l _ => l

def dirNode.truncated : dirNode → Bool
  | .mk _ _ _ _ _ t => t

/-- Member-wise induction principle for the rose tree of directories. -/
def dirNode.inductAux (P : dirNode → Prop)
    (h : ∀ nm p fs cs l t, (∀ c ∈ cs, P c) → P (dirNode.mk nm p fs cs l t)) :
    (n : dirNode) → P n
  | .mk nm p fs cs l t =>
    h nm p fs cs l t (fun c hc => dirNode.inductAux P h c)
termination_by n => sizeOf n
decreasing_by
  have := List.sizeOf_lt_of_mem hc
  simp only [dirNode.mk.sizeOf_spec]
  omega

mutual
/-- Model of calculateLines: recomputes every node's line count as the
sum of its own files' fileLineCount plus the children's recomputed
counts.  Note that it reads fileLineCount regardless of the truncated
flag. -/
def calculateLines : dirNode → dirNode
  | .mk nm p fs cs _ t =>
    let cs' := calcChildren cs
    dirNode.mk nm p fs cs' ((fs.map fileLineCount).sum + (cs'.map dirNode.lines).sum) t
def calcChildren : List dirNode → List dirNode
  | [] => []
  | c :: cs => calculateLines c :: calcChildren cs
end

/-- Model of recalculateParentLines: delegates to calculateLines. -/
def recalculateParentLines (root : dirNode) : dirNode :=
  calculateLines root

/-- Helper of buildDirTree's navigation loop: find the child named part
in the children map, or create it, and run the continuation go on it.
New children are appended at the end of the modelled map order. -/
def insertChildAux (part newPath : List Char) (go : dirNode → dirNode) :
    List dirNode → List dirNode
  | [] => [go (dirNode.mk part newPath [] [] 0 false)]
  | c :: cs => if c.name = part then go c :: cs else c :: insertChildAux part newPath go cs

/-- Model of buildDirTree's per-file navigation: walk the directory
components (skipping "." and "" as the source loop does), then append
the file and add its line count at the final node. -/
def insertFile : dirNode → List (List Char) → List Char → FileIndex → dirNode
  | node, [], _, f =>
    dirNode.mk node.name node.path (node.files ++ [f]) node.children
      (node.lines + fileLineCount f) node.truncated
  | node, part :: rest, curPath, f =>
    if part = ".".data ∨ part = [] then insertFile node rest curPath f
    else
      let newPath := if curPath = [] then part else curPath ++ "/".data ++ part
      dirNode.mk node.name node.path node.files
        (insertChildAux part newPath (fun c => insertFile c rest newPath f) node.children)
        node.lines node.truncated

/-- Directory components of a file path: filepath.Dir splits off the last
path element; the navigation loop then iterates the components of that
directory.  For the clean slash-separated relative paths the indexer
produces this equals dropping the last component of the split path. -/
def dirParts (path : List Char) : List (List Char) :=
  (splitOnStr path "/".data).dropLast

/-- Model of the body of buildDirTree's file loop: filter/skip logic
first (a skipped file only bumps the root line count), files without
symbols are dropped, everything else is inserted into the tree. -/
def addFile (opts : FormatOptions) (root : dirNode) (f : FileIndex) : dirNode :=
  if opts.filter ≠ [] then
    if ¬ matchesFilter f.path opts.filter then root
    else if f.symbols = 0 then root
    else insertFile root (dirParts f.path) [] f
  else if isSkipped f.path opts.skipPatterns then
    -- skipped files still count as 3 lines (header + skip message + blank)
    dirNode.mk root.name root.path root.files root.children (root.lines + 3) root.truncated
  else if f.symbols = 0 then root
  else insertFile root (dirParts f.path) [] f

/-- Model of buildDirTree: fold the files into an empty root, then
recalculate all line counts bottom-up. -/
def buildDirTree (files : List FileIndex) (opts : FormatOptions) : dirNode :=
  calculateLines (files.foldl (addFile opts) (dirNode.mk [] [] [] [] 0 false))

/-! ## findLargestLeaf and the pruning loop

findLargestLeaf returns a pointer into the tree; the model returns the
address of the node (the list of child indices from the root), which
identifies it uniquely. -/

mutual
/-- Walk of findLargestLeaf's findLeaf closure: a node with no children
that is not the root and not truncated is a candidate; otherwise the
walk descends into the children in map order.  The walk is split into
the candidate sequence in visit order (here, with each candidate's
address and line count) and the fold of the running maximum over it
(in findLargestLeaf below), which composes to the same computation as
the Go accumulator threading. -/
def eligLeaves (isRoot : Bool) (addr : List Nat) : dirNode → List (List Nat × Int)
  | .mk _ _ _ cs l t =>
    if cs.isEmpty && !isRoot && !t then [(addr, l)]
    else eligLeavesL addr 0 cs
def eligLeavesL (addr : List Nat) (i : Nat) : List dirNode → List (List Nat × Int)
  | [] => []
  | c :: cs => eligLeaves false (addr ++ [i]) c ++ eligLeavesL addr (i+1) cs
end

/-- Model of findLargestLeaf: address of the non-truncated leaf
directory with the most lines; candidates are compared with a strict >
against a running maximum that starts at 0, so the first candidate of
maximal line count in visit order wins, and none is returned if no
candidate has a positive line count. -/
def findLargestLeaf (root : dirNode) : Option (List Nat) :=
  ((eligLeaves true [] root).foldl
    (fun acc p => if p.2 > acc.2 then (some p.1, p.2) else acc) (none, 0)).1

/-- Node lookup by address. -/
def getNode : dirNode → List Nat → Option dirNode
  | n, [] => some n
  | n, i :: rest =>
    match n.children[i]? with
    | some c => getNode c rest
    | none => none

/-- Apply g to the element at index i, if present. -/
def modifyIdx (g : α → α) : List α → Nat → List α
  | [], _ => []
  | x :: xs, 0 => g x :: xs
  | x :: xs, i+1 => x :: modifyIdx g xs i

/-- Apply g to the node at the given address, if present. -/
def modifyAt (g : dirNode → dirNode) : dirNode → List Nat → dirNode
  | n, [] => g n
  | n, i :: rest =>
    dirNode.mk n.name n.path n.files (modifyIdx (fun c => modifyAt g c rest) n.children i)
      n.lines n.truncated

/-- Model of the truncation of a found leaf: mark it truncated and set
its line count to len(files) * truncatedFileLineCount. -/
def truncateAt (root : dirNode) (addr : List Nat) : dirNode :=
  modifyAt
    (fun leaf => dirNode.mk leaf.name leaf.path leaf.files leaf.children
      ((leaf.files.length : Int) * truncatedFileLineCount) true)
    root addr

/-- Model of the pruning loop of pruneToLimit.  One iteration: find the
largest non-truncated leaf, mark it truncated, subtract the savings from
the running total, and recalculate all line counts.  The fuel stands for
the loop counter: every iteration truncates one more eligible leaf, so
the number of iterations is bounded by the number of eligible leaves
(pruneToLimit supplies exactly that, and the stabilization theorem below
proves any larger fuel gives the same result); the fuel-exhaustion
branch is unreachable.  The branch for an unresolvable address is also
unreachable since findLargestLeaf returns addresses of nodes in the
tree. -/
def pruneLoop : Nat → dirNode → Int → Int → dirNode × Int
  | 0, root, cur, _ => (root, cur)
  | fuel+1, root, cur, limit =>
    if cur > limit then
      match findLargestLeaf root with
      | none => (root, cur)
      | some addr =>
        match getNode root addr with
        | none => (root, cur)
        | some leaf =>
          let newLines : Int := (leaf.files.length : Int) * truncatedFileLineCount
          let savings := leaf.lines - newLines
          let root' := recalculateParentLines (truncateAt root addr)
          pruneLoop fuel root' (cur - savings) limit
    else (root, cur)

mutual
/-- Number of candidate leaves findLargestLeaf may choose from: nodes
with no children that are not truncated, the root excluded. -/
def eligCount : dirNode → Nat
  | .mk _ _ _ cs _ t =>
    if cs.isEmpty then (if t then 0 else 1) else eligCountL cs
def eligCountL : List dirNode → Nat
  | [] => 0
  | c :: cs => eligCount c + eligCountL cs
end

/-- Eligible-leaf count of the whole tree (the root itself is never
eligible). -/
def eligibleLeafCount (root : dirNode) : Nat :=
  eligCountL root.children

/-! ## pruneFilesToLimit -/

/-- Model of the fileEntry bookkeeping record of pruneFilesToLimit: the
node pointer is modelled by the node's address, index is the position in
that node's files slice. -/
structure fileEntry where
  addr : List Nat
  idx : Nat
  lines : Int
deriving Repr, DecidableEq

mutual
/-- Model of collectEntries: all files tree-wide, a node's own files
first, then the children in map order. -/
def collectEntries (addr : List Nat) : dirNode → List fileEntry
  | .mk _ _ fs cs _ _ =>
    (fs.enum.map fun p => fileEntry.mk addr p.1 (fileLineCount p.2)) ++
      collectEntriesL addr 0 cs
def collectEntriesL (addr : List Nat) (i : Nat) : List dirNode → List fileEntry
  | [] => []
  | c :: cs => collectEntries (addr ++ [i]) c ++ collectEntriesL addr (i+1) cs
end

/-- Model of the removal loop: walk the sorted entries, marking entries
for removal and subtracting their line counts until the running total is
within the limit.  Returns the marked entries and the new total. -/
def dropEntries : List fileEntry → Int → Int → List fileEntry × Int
  | [], cur, _ => ([], cur)
  | e :: es, cur, limit =>
    if cur ≤ limit then ([], cur)
    else
      let r := dropEntries es (cur - e.lines) limit
      (e :: r.1, r.2)

/-- Keep only the files at indices not marked for removal at this
address. -/
def keepFiles (removed : List fileEntry) (addr : List Nat) (fs : List FileIndex) :
    List FileIndex :=
  (fs.enum.filter fun p => !(removed.any fun e => e.addr == addr && e.idx == p.1)).map
    fun p => p.2

mutual
/-- Model of the final removal pass of pruneFilesToLimit: rebuild every
node's files slice without the removed indices. -/
def removeMarked (removed : List fileEntry) (addr : List Nat) : dirNode → dirNode
  | .mk nm p fs cs l t =>
    dirNode.mk nm p (keepFiles removed addr fs) (removeMarkedL removed addr 0 cs) l t
def removeMarkedL (removed : List fileEntry) (addr : List Nat) (i : Nat) :
    List dirNode → List dirNode
  | [] => []
  | c :: cs => removeMarked removed (addr ++ [i]) c :: removeMarkedL removed addr (i+1) cs
end

/-- Model of pruneFilesToLimit: collect every file tree-wide with its
individual line count, sort descending by line count (sort.Slice; ties
are broken arbitrarily by the unstable sort, modelled here by a stable
insertion sort), then drop files largest-first until the running total
is within the limit, and rebuild the tree without them. -/
def pruneFilesToLimit (root : dirNode) (cur limit : Int) : dirNode × Int :=
  let entries := List.insertionSort (fun a b : fileEntry => b.lines ≤ a.lines)
    (collectEntries [] root)
  let dropped := dropEntries entries cur limit
  (removeMarked dropped.1 [] root, dropped.2)

/-! ## collectFiles and pruneToLimit -/

mutual
/-- Model of the collect closure of collectFiles: the node's own files
(marked Truncated when the node is), then the children in ascending name
order.  The Go code sorts the child names and looks each one up in the
map; since the names in a children map are unique, this equals visiting
the (name, result) pairs sorted by name. -/
def collectGo : dirNode → List FileIndex
  | .mk _ _ fs cs _ t =>
    fs.map (fun f => if t then FileIndex.mk f.path f.symbols true else f) ++
      ((List.insertionSort (fun a b : List Char × List FileIndex => strLe a.1 b.1)
        (collectPairs cs)).map (fun p => p.2)).flatten
def collectPairs : List dirNode → List (List Char × List FileIndex)
  | [] => []
  | c :: cs => (c.name, collectGo c) :: collectPairs cs
end

/-- Model of collectFiles: depth-first collection followed by a sort of
the flat list by path (sort.Slice with a strict less; modelled by a
stable insertion sort, which agrees whenever paths are distinct). -/
def collectFiles (root : dirNode) : List FileIndex :=
  List.insertionSort (fun a b : FileIndex => strLe a.path b.path) (collectGo root)

/-- Model of pruneToLimit: no pruning when the limit is non-positive or
the tree already fits; otherwise truncate whole leaf directories
largest-first, and if that is not enough, drop individual files
largest-first.  The loop fuel is the number of eligible leaves, which
the stabilization theorem below shows is enough to drive the loop to its
exit condition. -/
def pruneToLimit (root : dirNode) (limit : Int) : List FileIndex :=
  if limit ≤ 0 ∨ root.lines ≤ limit then collectFiles root
  else
    let p1 := pruneLoop (eligibleLeafCount root) root root.lines limit
    let p2 := if p1.2 > limit then pruneFilesToLimit p1.1 p1.2 limit else p1
    collectFiles p2.1

/-! ## FormatCodemap (limit handling and output size) -/

/-- Effective limit of FormatCodemap: a configured limit of exactly 0 is
replaced by DefaultLineLimit; any other value (negative included) is
kept. -/
def effectiveLimit (l : Int) : Int :=
  if l = 0 then DefaultLineLimit else l

/-- The file partition FormatCodemap renders: the pruned file list of
the tree built from the input under the effective limit. -/
def formatCodemapFiles (files : List FileIndex) (opts : FormatOptions) : List FileIndex :=
  pruneToLimit (buildDirTree files opts) (effectiveLimit opts.lineLimit)

/-- Lines a single pruned file contributes to the output: nothing for a
symbol-less non-truncated file, header + notice + blank for a truncated
file, header + one line per symbol + blank otherwise. -/
def renderedLineCount (f : FileIndex) : Int :=
  if f.symbols = 0 ∧ f.truncated = false then 0
  else if f.truncated then 3 else 1 + (f.symbols : Int) + 1

/-- Total line count of FormatCodemap's output: three lines of skip
notice per skipped input file (only when no filter is set), plus the
rendered lines of every pruned file. -/
def formatCodemapLineCount (files : List FileIndex) (opts : FormatOptions) : Int :=
  ((files.filter fun f => opts.filter = [] ∧ isSkipped f.path opts.skipPatterns).length : Int) * 3
    + ((formatCodemapFiles files opts).map renderedLineCount).sum

/-- Eligibility of an input file for the directory tree, read off the
branch structure of addFile: it must pass the filter (or, with no
filter, not be skipped) and have at least one symbol. -/
def treeEligible (opts : FormatOptions) (f : FileIndex) : Bool :=
  (if opts.filter ≠ [] then matchesFilter f.path opts.filter
   else !isSkipped f.path opts.skipPatterns) && decide (f.symbols ≠ 0)

/-! ## Verification-layer definitions

The following definitions are not translations of source functions; they
are observers of the embedded state used to state and prove properties:
the multiset of files stored in a tree, and the absence of truncation
marks. -/

mutual
/-- All files stored in a subtree, own files first, children in map
order. -/
def treeFiles : dirNode → List FileIndex
  | .mk _ _ fs cs _ _ => fs ++ treeFilesL cs
def treeFilesL : List dirNode → List FileIndex
  | [] => []
  | c :: cs => treeFiles c ++ treeFilesL cs
end

mutual
/-- No node of the subtree carries the truncated mark. -/
def allUntrunc : dirNode → Bool
  | .mk _ _ _ cs _ t => !t && allUntruncL cs
def allUntruncL : List dirNode → Bool
  | [] => true
  | c :: cs => allUntrunc c && allUntruncL cs
end

/-! ## Concrete inputs used by the witnesses and counterexamples -/

/-- Default format options: no skip patterns, no filter, configured
limit 0. -/
def optsDefault : FormatOptions := ⟨[], [], 0⟩

/-- A single two-symbol file in directory a: its cost is 4 lines. -/
def bugTreeC1 : dirNode := buildDirTree [⟨"a/x.go".data, 2, false⟩] optsDefault

/-- Two directories holding one twenty-symbol file each: both leaf
directories cost 22 lines, a tie.  The two trees hold the same children
map; only the modelled iteration order differs. -/
def tieTreeAB : dirNode :=
  calculateLines (dirNode.mk [] [] []
    [dirNode.mk "a".data "a".data [⟨"a/x.go".data, 20, false⟩] [] 0 false,
     dirNode.mk "b".data "b".data [⟨"b/y.go".data, 20, false⟩] [] 0 false] 0 false)

/-- The same tree as tieTreeAB with the sibling order reversed. -/
def tieTreeBA : dirNode :=
  calculateLines (dirNode.mk [] [] []
    [dirNode.mk "b".data "b".data [⟨"b/y.go".data, 20, false⟩] [] 0 false,
     dirNode.mk "a".data "a".data [⟨"a/x.go".data, 20, false⟩] [] 0 false] 0 false)

/-- A root file (cost 4) plus a directory file (cost 12): total 16. -/
def fallbackTreeC3 : dirNode :=
  buildDirTree [⟨"main.go".data, 2, false⟩, ⟨"a/x.go".data, 10, false⟩] optsDefault

/-! ## Basic unfolding lemmas for the mutual tree functions -/

@[simp]
theorem dirNode.name_mk (nm p : List Char) (fs : List FileIndex) (cs : List dirNode)
    (l : Int) (t : Bool) : (dirNode.mk nm p fs cs l t).name = nm := rfl

@[simp]
theorem dirNode.path_mk (nm p : List Char) (fs : List FileIndex) (cs : List dirNode)
    (l : Int) (t : Bool) : (dirNode.mk nm p fs cs l t).path = p := rfl

@[simp]
theorem dirNode.files_mk (nm p : List Char) (fs : List FileIndex) (cs : List dirNode)
    (l : Int) (t : Bool) : (dirNode.mk nm p fs cs l t).files = fs := rfl

@[simp]
theorem dirNode.children_mk (nm p : List Char) (fs : List FileIndex) (cs : List dirNode)
    (l : Int) (t : Bool) : (dirNode.mk nm p fs cs l t).children = cs := rfl

@[simp]
theorem dirNode.lines_mk (nm p : List Char) (fs : List FileIndex) (cs : List dirNode)
    (l : Int) (t : Bool) : (dirNode.mk nm p fs cs l t).lines = l := rfl

@[simp]
theorem dirNode.truncated_mk (nm p : List Char) (fs : List FileIndex) (cs : List dirNode)
    (l : Int) (t : Bool) : (dirNode.mk nm p fs cs l t).truncated = t := rfl

theorem calcChildren_eq (cs : List dirNode) : calcChildren cs = cs.map calculateLines := by
  induction cs with
  | nil => rfl
  | cons c cs ih => simp [calcChildren, ih]

theorem treeFilesL_eq (cs : List dirNode) : treeFilesL cs = (cs.map treeFiles).flatten := by
  induction cs with
  | nil => rfl
  | cons c cs ih => simp [treeFilesL, ih]

theorem allUntruncL_eq (cs : List dirNode) : allUntruncL cs = cs.all allUntrunc := by
  induction cs with
  | nil => rfl
  | cons c cs ih => simp [allUntruncL, ih]

theorem eligCountL_eq (cs : List dirNode) : eligCountL cs = (cs.map eligCount).sum := by
  induction cs with
  | nil => rfl
  | cons c cs ih => simp [eligCountL, ih]

theorem collectPairs_eq (cs : List dirNode) :
    collectPairs cs = cs.map (fun c => (c.name, collectGo c)) := by
  induction cs with
  | nil => rfl
  | cons c cs ih => simp [collectPairs, ih]

theorem calculateLines_name (n : dirNode) : (calculateLines n).name = n.name := by
  cases n; simp [calculateLines, dirNode.name]

theorem calculateLines_files (n : dirNode) : (calculateLines n).files = n.files := by
  cases n; simp [calculateLines, dirNode.files]

theorem calculateLines_truncated (n : dirNode) : (calculateLines n).truncated = n.truncated := by
  cases n; simp [calculateLines, dirNode.truncated]

theorem calculateLines_children (n : dirNode) :
    (calculateLines n).children = calcChildren n.children := by
  cases n; simp [calculateLines, dirNode.children]

/-- Permutation of the outer list permutes the flattened list. -/
theorem perm_flatten {α : Type} {l₁ l₂ : List (List α)} (h : l₁.Perm l₂) :
    l₁.flatten.Perm l₂.flatten := by
  induction h with
  | nil => rfl
  | cons x _ ih => simpa using ih.append_left x
  | swap x y l =>
    simp only [List.flatten_cons]
    rw [← List.append_assoc, ← List.append_assoc]
    exact (List.perm_append_comm).append_right _
  | trans _ _ ih1 ih2 => exact ih1.trans ih2

/-! ## calculateLines preserves everything but the line counts -/

theorem calcChildren_isEmpty (cs : List dirNode) :
    (calcChildren cs).isEmpty = cs.isEmpty := by
  cases cs <;> rfl

theorem treeFilesL_calc_congr (cs : List dirNode)
    (h : ∀ c ∈ cs, treeFiles (calculateLines c) = treeFiles c) :
    treeFilesL (calcChildren cs) = treeFilesL cs := by
  induction cs with
  | nil => rfl
  | cons c cs ih =>
    simp only [calcChildren, treeFilesL]
    rw [h c (by simp), ih (fun x hx => h x (by simp [hx]))]

theorem allUntruncL_calc_congr (cs : List dirNode)
    (h : ∀ c ∈ cs, allUntrunc (calculateLines c) = allUntrunc c) :
    allUntruncL (calcChildren cs) = allUntruncL cs := by
  induction cs with
  | nil => rfl
  | cons c cs ih =>
    simp only [calcChildren, allUntruncL]
    rw [h c (by simp), ih (fun x hx => h x (by simp [hx]))]

theorem eligCountL_calc_congr (cs : List dirNode)
    (h : ∀ c ∈ cs, eligCount (calculateLines c) = eligCount c) :
    eligCountL (calcChildren cs) = eligCountL cs := by
  induction cs with
  | nil => rfl
  | cons c cs ih =>
    simp only [calcChildren, eligCountL]
    rw [h c (by simp), ih (fun x hx => h x (by simp [hx]))]

theorem collectPairs_calc_congr (cs : List dirNode)
    (h : ∀ c ∈ cs, collectGo (calculateLines c) = collectGo c) :
    collectPairs (calcChildren cs) = collectPairs cs := by
  induction cs with
  | nil => rfl
  | cons c cs ih =>
    simp only [calcChildren, collectPairs]
    rw [calculateLines_name, h c (by simp), ih (fun x hx => h x (by simp [hx]))]

theorem treeFiles_calculateLines (n : dirNode) : treeFiles (calculateLines n) = treeFiles n := by
  induction n using dirNode.inductAux with
  | h nm p fs cs l t ih =>
    simp only [calculateLines, treeFiles]
    rw [treeFilesL_calc_congr cs ih]

theorem allUntrunc_calculateLines (n : dirNode) : allUntrunc (calculateLines n) = allUntrunc n := by
  induction n using dirNode.inductAux with
  | h nm p fs cs l t ih =>
    simp only [calculateLines, allUntrunc]
    rw [allUntruncL_calc_congr cs ih]

theorem eligCount_calculateLines (n : dirNode) : eligCount (calculateLines n) = eligCount n := by
  induction n using dirNode.inductAux with
  | h nm p fs cs l t ih =>
    simp only [calculateLines, eligCount, calcChildren_isEmpty]
    rw [eligCountL_calc_congr cs ih]

theorem collectGo_calculateLines (n : dirNode) : collectGo (calculateLines n) = collectGo n := by
  induction n using dirNode.inductAux with
  | h nm p fs cs l t ih =>
    simp only [calculateLines, collectGo]
    rw [collectPairs_calc_congr cs ih]

/-! ## Insertion into the tree: file multiset and truncation flags -/

theorem treeFilesL_insertChildAux {f : FileIndex} (part newPath : List Char)
    (go : dirNode → dirNode)
    (hgo : ∀ c : dirNode, (treeFiles (go c)).Perm (f :: treeFiles c)) :
    ∀ cs : List dirNode,
      (treeFilesL (insertChildAux part newPath go cs)).Perm (f :: treeFilesL cs) := by
  intro cs
  induction cs with
  | nil =>
    have h := hgo (dirNode.mk part newPath [] [] 0 false)
    simp only [treeFiles, treeFilesL, List.append_nil] at h
    simp only [insertChildAux, treeFilesL, List.append_nil]
    exact h
  | cons c cs ih =>
    simp only [insertChildAux]
    split
    · simp only [treeFilesL]
      exact (hgo c).append_right _
    · simp only [treeFilesL]
      exact (ih.append_left _).trans (List.perm_middle)

theorem treeFiles_insertFile (parts : List (List Char)) :
    ∀ (node : dirNode) (curPath : List Char) (f : FileIndex),
      (treeFiles (insertFile node parts curPath f)).Perm (f :: treeFiles node) := by
  induction parts with
  | nil =>
    intro node curPath f
    cases node
    simp only [insertFile, treeFiles, dirNode.files, dirNode.children, dirNode.name,
      dirNode.path, dirNode.lines, dirNode.truncated, List.append_assoc, List.singleton_append]
    exact List.perm_middle
  | cons part rest ih =>
    intro node curPath f
    cases node with
    | mk nm p fs cs l t =>
      simp only [insertFile]
      split
      · exact ih _ _ _
      · simp only [treeFiles, dirNode.files, dirNode.children, dirNode.name, dirNode.path]
        refine ((treeFilesL_insertChildAux part _ _ (fun c => ih c _ f) cs).append_left fs).trans ?_
        exact List.perm_middle

theorem allUntruncL_insertChildAux (part newPath : List Char)
    (go : dirNode → dirNode)
    (hgo : ∀ c : dirNode, allUntrunc (go c) = allUntrunc c) :
    ∀ cs : List dirNode,
      allUntruncL (insertChildAux part newPath go cs) = allUntruncL cs := by
  intro cs
  induction cs with
  | nil =>
    have h := hgo (dirNode.mk part newPath [] [] 0 false)
    simp only [allUntrunc, allUntruncL, Bool.not_false, Bool.and_true, Bool.true_and] at h
    simp only [insertChildAux, allUntruncL, h, Bool.and_true]
  | cons c cs ih =>
    simp only [insertChildAux]
    split
    · simp only [allUntruncL, hgo c]
    · simp only [allUntruncL, ih]

theorem allUntrunc_insertFile (parts : List (List Char)) :
    ∀ (node : dirNode) (curPath : List Char) (f : FileIndex),
      allUntrunc (insertFile node parts curPath f) = allUntrunc node := by
  induction parts with
  | nil =>
    intro node curPath f
    cases node
    simp only [insertFile, allUntrunc, dirNode.files, dirNode.children, dirNode.truncated,
      dirNode.name, dirNode.path, dirNode.lines]
  | cons part rest ih =>
    intro node curPath f
    cases node with
    | mk nm p fs cs l t =>
      simp only [insertFile]
      split
      · exact ih _ _ _
      · simp only [allUntrunc, dirNode.children, dirNode.truncated]
        rw [allUntruncL_insertChildAux part
          (if curPath = [] then part else curPath ++ ['/'] ++ part)
          (fun c => insertFile c rest (if curPath = [] then part else curPath ++ ['/'] ++ part) f)
          (fun c => ih c _ f) cs]

/-! ## Folding the input files into the tree -/

theorem addFile_of_eligible (opts : FormatOptions) (root : dirNode) (f : FileIndex)
    (h : treeEligible opts f = true) :
    addFile opts root f = insertFile root (dirParts f.path) [] f := by
  simp only [treeEligible, Bool.and_eq_true, decide_eq_true_eq] at h
  obtain ⟨h1, h2⟩ := h
  unfold addFile
  split_ifs <;> first
  | rfl
  | (exfalso; simp_all; done)

theorem treeFiles_addFile_of_not_eligible (opts : FormatOptions) (root : dirNode) (f : FileIndex)
    (h : treeEligible opts f = false) :
    treeFiles (addFile opts root f) = treeFiles root ∧
      allUntrunc (addFile opts root f) = allUntrunc root := by
  unfold addFile
  split_ifs <;>
    first
      | (exfalso; simp_all [treeEligible]; done)
      | exact ⟨rfl, rfl⟩
      | (cases root; exact ⟨by simp [treeFiles], by simp [allUntrunc]⟩)

theorem treeFiles_foldl (opts : FormatOptions) :
    ∀ (files : List FileIndex) (acc : dirNode),
      (treeFiles (files.foldl (addFile opts) acc)).Perm
        (treeFiles acc ++ files.filter (treeEligible opts)) := by
  intro files
  induction files with
  | nil => intro acc; simp
  | cons f fs ih =>
    intro acc
    simp only [List.foldl_cons]
    cases hel : treeEligible opts f with
    | true =>
      have step : (treeFiles (addFile opts acc f)).Perm (f :: treeFiles acc) := by
        rw [addFile_of_eligible opts acc f hel]
        exact treeFiles_insertFile _ _ _ _
      have h1 := ih (addFile opts acc f)
      have h2 := step.append_right (fs.filter (treeEligible opts))
      simp only [List.filter_cons, hel, if_true, List.cons_append] at *
      exact h1.trans (h2.trans List.perm_middle.symm)
    | false =>
      have step := (treeFiles_addFile_of_not_eligible opts acc f hel).1
      have h1 := ih (addFile opts acc f)
      rw [step] at h1
      simpa [List.filter_cons, hel] using h1

theorem allUntrunc_foldl (opts : FormatOptions) :
    ∀ (files : List FileIndex) (acc : dirNode),
      allUntrunc (files.foldl (addFile opts) acc) = allUntrunc acc := by
  intro files
  induction files with
  | nil => intro acc; rfl
  | cons f fs ih =>
    intro acc
    simp only [List.foldl_cons]
    rw [ih]
    cases hel : treeEligible opts f with
    | true =>
      rw [addFile_of_eligible opts acc f hel]
      exact allUntrunc_insertFile _ _ _ _
    | false =>
      exact (treeFiles_addFile_of_not_eligible opts acc f hel).2

theorem treeFiles_buildDirTree (files : List FileIndex) (opts : FormatOptions) :
    (treeFiles (buildDirTree files opts)).Perm (files.filter (treeEligible opts)) := by
  unfold buildDirTree
  rw [treeFiles_calculateLines]
  simpa [treeFiles, treeFilesL] using treeFiles_foldl opts files (dirNode.mk [] [] [] [] 0 false)

theorem allUntrunc_buildDirTree (files : List FileIndex) (opts : FormatOptions) :
    allUntrunc (buildDirTree files opts) = true := by
  unfold buildDirTree
  rw [allUntrunc_calculateLines, allUntrunc_foldl]
  simp [allUntrunc, allUntruncL]

/-! ## Collection of an unpruned tree -/

theorem flatten_collect_tree (cs : List dirNode) (hcs : allUntruncL cs = true)
    (ih : ∀ c ∈ cs, allUntrunc c = true → (collectGo c).Perm (treeFiles c)) :
    ((cs.map collectGo).flatten).Perm (treeFilesL cs) := by
  induction cs with
  | nil => simp [treeFilesL]
  | cons c cs ihl =>
    simp only [allUntruncL, Bool.and_eq_true] at hcs
    simp only [List.map_cons, List.flatten_cons, treeFilesL]
    exact (ih c (by simp) hcs.1).append (ihl hcs.2 (fun x hx h => ih x (by simp [hx]) h))

theorem collectGo_perm (n : dirNode) (h : allUntrunc n = true) :
    (collectGo n).Perm (treeFiles n) := by
  induction n using dirNode.inductAux with
  | h nm p fs cs l t ih =>
    simp only [allUntrunc, Bool.and_eq_true, Bool.not_eq_true'] at h
    obtain ⟨ht, hcs⟩ := h
    subst ht
    simp only [collectGo, treeFiles, Bool.false_eq_true, if_false]
    refine List.Perm.append (by simp) ?_
    have hsort : ((List.insertionSort
          (fun a b : List Char × List FileIndex => strLe a.1 b.1)
          (collectPairs cs)).map (fun p => p.2)).Perm
        ((collectPairs cs).map (fun p => p.2)) :=
      (List.perm_insertionSort _ _).map _
    refine (perm_flatten hsort).trans ?_
    rw [collectPairs_eq, List.map_map]
    exact flatten_collect_tree cs hcs (fun c hc h => ih c hc h)

theorem collectFiles_perm (n : dirNode) (h : allUntrunc n = true) :
    (collectFiles n).Perm (treeFiles n) :=
  (List.perm_insertionSort _ _).trans (collectGo_perm n h)

theorem pruneToLimit_eq_collect (root : dirNode) (limit : Int)
    (h : limit ≤ 0 ∨ root.lines ≤ limit) :
    pruneToLimit root limit = collectFiles root := by
  unfold pruneToLimit
  rw [if_pos h]

theorem collectFiles_buildDirTree_perm (files : List FileIndex) (opts : FormatOptions) :
    (collectFiles (buildDirTree files opts)).Perm (files.filter (treeEligible opts)) :=
  (collectFiles_perm _ (allUntrunc_buildDirTree files opts)).trans
    (treeFiles_buildDirTree files opts)

theorem collectFiles_buildDirTree_untrunc (files : List FileIndex) (opts : FormatOptions)
    (hun : ∀ f ∈ files, f.truncated = false) :
    ∀ g ∈ collectFiles (buildDirTree files opts), g.truncated = false := by
  intro g hg
  have hm := (collectFiles_buildDirTree_perm files opts).mem_iff.mp hg
  exact hun g (List.mem_of_mem_filter hm)

/-! ## findLargestLeaf returns an eligible leaf -/

theorem eligCount_def (m : dirNode) :
    eligCount m = if m.children.isEmpty then (if m.truncated then 0 else 1)
      else eligCountL m.children := by
  cases m; rfl

theorem modifyIdx_isEmpty {α : Type} (g : α → α) (cs : List α) (i : Nat) :
    (modifyIdx g cs i).isEmpty = cs.isEmpty := by
  cases cs <;> cases i <;> rfl

theorem eligLeavesL_spec (cs : List dirNode)
    (ih : ∀ c ∈ cs, ∀ (isRoot : Bool) (addr0 : List Nat) (q : List Nat × Int),
      q ∈ eligLeaves isRoot addr0 c →
      ∃ r leaf, q.1 = addr0 ++ r ∧ getNode c r = some leaf ∧
        leaf.children = [] ∧ leaf.truncated = false ∧ (isRoot = true → r ≠ [])) :
    ∀ (addr0 : List Nat) (i : Nat) (q : List Nat × Int), q ∈ eligLeavesL addr0 i cs →
      ∃ j c r leaf, cs[j]? = some c ∧ q.1 = addr0 ++ (i + j) :: r ∧
        getNode c r = some leaf ∧ leaf.children = [] ∧ leaf.truncated = false := by
  induction cs with
  | nil => intro addr0 i q hq; simp [eligLeavesL] at hq
  | cons c cs ihl =>
    intro addr0 i q hq
    simp only [eligLeavesL, List.mem_append] at hq
    rcases hq with hq | hq
    · obtain ⟨r, leaf, h1, h2, h3, h4, _⟩ := ih c (by simp) false (addr0 ++ [i]) q hq
      refine ⟨0, c, r, leaf, by simp, ?_, h2, h3, h4⟩
      simpa using h1
    · obtain ⟨j, c', r, leaf, h0, h1, h2, h3, h4⟩ :=
        ihl (fun x hx => ih x (by simp [hx])) addr0 (i+1) q hq
      refine ⟨j + 1, c', r, leaf, by simpa using h0, ?_, h2, h3, h4⟩
      rw [h1]
      congr 2
      omega

theorem eligLeaves_spec (n : dirNode) :
    ∀ (isRoot : Bool) (addr0 : List Nat) (q : List Nat × Int),
      q ∈ eligLeaves isRoot addr0 n →
      ∃ r leaf, q.1 = addr0 ++ r ∧ getNode n r = some leaf ∧
        leaf.children = [] ∧ leaf.truncated = false ∧ (isRoot = true → r ≠ []) := by
  induction n using dirNode.inductAux with
  | h nm p fs cs l t ih =>
    intro isRoot addr0 q hq
    simp only [eligLeaves] at hq
    split at hq
    · rename_i hcond
      simp only [Bool.and_eq_true, Bool.not_eq_true', List.isEmpty_iff] at hcond
      obtain ⟨⟨hcs, hroot⟩, ht⟩ := hcond
      simp only [List.mem_singleton] at hq
      subst hq
      exact ⟨[], dirNode.mk nm p fs cs l t, by simp, by simp [getNode],
        by simpa using hcs, by simpa using ht, fun h => by rw [h] at hroot; cases hroot⟩
    · obtain ⟨j, c, r, leaf, h0, h1, h2, h3, h4⟩ := eligLeavesL_spec cs ih addr0 0 q hq
      refine ⟨j :: r, leaf, by simpa using h1, ?_, h3, h4, fun _ => by simp⟩
      simp only [getNode, dirNode.children]
      rw [h0]
      exact h2

theorem fold_some_mem (l : List (List Nat × Int)) :
    ∀ (acc : Option (List Nat) × Int) (a : List Nat),
      (l.foldl (fun acc p => if p.2 > acc.2 then (some p.1, p.2) else acc) acc).1 = some a →
      acc.1 = some a ∨ ∃ v, ((a, v) : List Nat × Int) ∈ l := by
  induction l with
  | nil => intro acc a h; exact Or.inl h
  | cons p l ih =>
    intro acc a h
    rcases ih _ a h with h0 | ⟨v, hv⟩
    · by_cases hc : p.2 > acc.2
      · simp only [hc, if_true, Option.some_inj] at h0
        exact Or.inr ⟨p.2, by rw [← h0]; exact List.mem_cons_self _ _⟩
      · simp only [hc, if_false] at h0
        exact Or.inl h0
    · exact Or.inr ⟨v, by simp [hv]⟩

theorem findLargestLeaf_spec (root : dirNode) (addr : List Nat)
    (h : findLargestLeaf root = some addr) :
    ∃ leaf, getNode root addr = some leaf ∧ leaf.children = [] ∧
      leaf.truncated = false ∧ addr ≠ [] := by
  unfold findLargestLeaf at h
  rcases fold_some_mem _ _ _ h with h0 | ⟨v, hv⟩
  · simp at h0
  · obtain ⟨r, leaf, h1, h2, h3, h4, h5⟩ := eligLeaves_spec root true [] (addr, v) hv
    simp only [List.nil_append] at h1
    subst h1
    exact ⟨leaf, h2, h3, h4, h5 rfl⟩

/-! ## Truncating an eligible leaf shrinks the candidate set -/

theorem eligCountL_modifyIdx (g' : dirNode → dirNode) :
    ∀ (cs : List dirNode) (i : Nat) (c : dirNode),
      cs[i]? = some c → eligCount (g' c) + 1 = eligCount c →
      eligCountL (modifyIdx g' cs i) + 1 = eligCountL cs := by
  intro cs
  induction cs with
  | nil => intro i c h; simp at h
  | cons x cs ih =>
    intro i c h hdec
    cases i with
    | zero =>
      simp only [List.getElem?_cons_zero, Option.some_inj] at h
      subst h
      simp only [modifyIdx, eligCountL]
      omega
    | succ i =>
      simp only [List.getElem?_cons_succ] at h
      simp only [modifyIdx, eligCountL]
      have := ih i c h hdec
      omega

theorem eligCount_modifyAt_truncates (g : dirNode → dirNode)
    (hg : ∀ m, (g m).children = m.children ∧ (g m).truncated = true) :
    ∀ (addr : List Nat) (n leaf : dirNode),
      getNode n addr = some leaf → leaf.children = [] → leaf.truncated = false →
      eligCount (modifyAt g n addr) + 1 = eligCount n := by
  intro addr
  induction addr with
  | nil =>
    intro n leaf h hc ht
    simp only [getNode, Option.some_inj] at h
    subst h
    simp only [modifyAt]
    rw [eligCount_def (g n), eligCount_def n, (hg n).1, (hg n).2, hc, ht]
    simp
  | cons i rest ih =>
    intro n leaf h hc ht
    cases n with
    | mk nm p fs cs l t =>
      simp only [getNode, dirNode.children] at h
      cases hcs : cs[i]? with
      | none => rw [hcs] at h; simp at h
      | some c =>
        rw [hcs] at h
        simp only [modifyAt]
        have hne : cs.isEmpty = false := by
          cases cs
          · simp at hcs
          · rfl
        rw [eligCount_def, eligCount_def (dirNode.mk nm p fs cs l t)]
        simp only [dirNode.children, dirNode.truncated, modifyIdx_isEmpty, hne,
          Bool.false_eq_true, if_false]
        exact eligCountL_modifyIdx _ cs i c hcs (ih c leaf h hc ht)

theorem eligibleLeafCount_truncate (root : dirNode) (addr : List Nat)
    (h : findLargestLeaf root = some addr) :
    eligibleLeafCount (truncateAt root addr) + 1 = eligibleLeafCount root := by
  obtain ⟨leaf, hget, hc, ht, hne⟩ := findLargestLeaf_spec root addr h
  cases addr with
  | nil => exact absurd rfl hne
  | cons i rest =>
    cases root with
    | mk nm p fs cs l t =>
      simp only [getNode, dirNode.children] at hget
      cases hcs : cs[i]? with
      | none => rw [hcs] at hget; simp at hget
      | some c =>
        rw [hcs] at hget
        unfold truncateAt
        simp only [modifyAt, eligibleLeafCount, dirNode.children]
        refine eligCountL_modifyIdx _ cs i c hcs ?_
        refine eligCount_modifyAt_truncates _ (fun m => by cases m; simp) rest c leaf hget hc ht

theorem eligibleLeafCount_recalc (m : dirNode) :
    eligibleLeafCount (recalculateParentLines m) = eligibleLeafCount m := by
  unfold recalculateParentLines eligibleLeafCount
  rw [calculateLines_children]
  exact eligCountL_calc_congr m.children (fun c _ => eligCount_calculateLines c)

/-! ## Small-step equations of the pruning loop -/

theorem pruneLoop_zero (root : dirNode) (cur limit : Int) :
    pruneLoop 0 root cur limit = (root, cur) := rfl

theorem pruneLoop_exit (fuel : Nat) (root : dirNode) (cur limit : Int)
    (h : ¬ cur > limit) : pruneLoop (fuel+1) root cur limit = (root, cur) := by
  simp only [pruneLoop, h, if_false]

theorem pruneLoop_none (fuel : Nat) (root : dirNode) (cur limit : Int)
    (hgt : cur > limit) (hfind : findLargestLeaf root = none) :
    pruneLoop (fuel+1) root cur limit = (root, cur) := by
  simp only [pruneLoop, hgt, if_true, hfind]

theorem pruneLoop_getNone (fuel : Nat) (root : dirNode) (cur limit : Int) (addr : List Nat)
    (hgt : cur > limit) (hfind : findLargestLeaf root = some addr)
    (hget : getNode root addr = none) :
    pruneLoop (fuel+1) root cur limit = (root, cur) := by
  simp only [pruneLoop, hgt, if_true, hfind, hget]

theorem pruneLoop_step (fuel : Nat) (root : dirNode) (cur limit : Int) (addr : List Nat)
    (leaf : dirNode) (hgt : cur > limit) (hfind : findLargestLeaf root = some addr)
    (hget : getNode root addr = some leaf) :
    pruneLoop (fuel+1) root cur limit =
      pruneLoop fuel (recalculateParentLines (truncateAt root addr))
        (cur - (leaf.lines - (leaf.files.length : Int) * truncatedFileLineCount)) limit := by
  simp only [pruneLoop, hgt, if_true, hfind, hget]

/-! ## The pruning loop is insensitive to extra fuel -/

theorem pruneLoop_stable : ∀ (k : Nat) (root : dirNode) (cur limit : Int) (m n : Nat),
    eligibleLeafCount root = k → k ≤ m → k ≤ n →
    pruneLoop m root cur limit = pruneLoop n root cur limit := by
  intro k
  induction k with
  | zero =>
    intro root cur limit m n hk _ _
    have hnone : findLargestLeaf root = none := by
      cases hfind : findLargestLeaf root with
      | none => rfl
      | some addr =>
        have := eligibleLeafCount_truncate root addr hfind
        omega
    have hall : ∀ fuel, pruneLoop fuel root cur limit = (root, cur) := by
      intro fuel
      cases fuel with
      | zero => rfl
      | succ f =>
        by_cases hgt : cur > limit
        · exact pruneLoop_none f root cur limit hgt hnone
        · exact pruneLoop_exit f root cur limit hgt
    rw [hall m, hall n]
  | succ k ih =>
    intro root cur limit m n hk hm hn
    cases m with
    | zero => omega
    | succ m' =>
      cases n with
      | zero => omega
      | succ n' =>
        by_cases hgt : cur > limit
        · cases hfind : findLargestLeaf root with
          | none =>
            rw [pruneLoop_none m' root cur limit hgt hfind,
              pruneLoop_none n' root cur limit hgt hfind]
          | some addr =>
            cases hget : getNode root addr with
            | none =>
              rw [pruneLoop_getNone m' root cur limit addr hgt hfind hget,
                pruneLoop_getNone n' root cur limit addr hgt hfind hget]
            | some leaf =>
              rw [pruneLoop_step m' root cur limit addr leaf hgt hfind hget,
                pruneLoop_step n' root cur limit addr leaf hgt hfind hget]
              have hdec := eligibleLeafCount_truncate root addr hfind
              have hk' : eligibleLeafCount
                  (recalculateParentLines (truncateAt root addr)) = k := by
                rw [eligibleLeafCount_recalc]
                omega
              exact ih _ _ _ m' n' hk' (by omega) (by omega)
        · rw [pruneLoop_exit m' root cur limit hgt, pruneLoop_exit n' root cur limit hgt]

/-! ## The matcher: ancestor propagation and last-rule precedence -/

theorem foldl_no_match (path : List Char) (isDir : Bool) :
    ∀ (l : List pattern) (b : Bool), (∀ r' ∈ l, r'.matches path isDir = false) →
      l.foldl (fun ignored p => if p.matches path isDir then !p.negation else ignored) b = b := by
  intro l
  induction l with
  | nil => intro b _; rfl
  | cons x l ih =>
    intro b h
    simp only [List.foldl_cons, h x (by simp), Bool.false_eq_true, if_false]
    exact ih b (fun r' hr' => h r' (by simp [hr']))

theorem matchPath_last (m : Matcher) (l1 l2 : List pattern) (r : pattern)
    (path : List Char) (isDir : Bool)
    (hdecomp : m.patterns = l1 ++ r :: l2)
    (hr : r.matches path isDir = true)
    (hlast : ∀ r' ∈ l2, r'.matches path isDir = false) :
    m.matchPath path isDir = !r.negation := by
  unfold Matcher.matchPath
  rw [hdecomp, List.foldl_append, List.foldl_cons, hr, if_pos rfl]
  exact foldl_no_match path isDir l2 (!r.negation) hlast

/-! ## The claims -/

/-- C1: the claimed invariant — after every truncation step and its
triggered recomputation, a truncated node's aggregate line count equals
3 lines per file (plus children) — fails on the code: calculateLines
(invoked as recalculateParentLines) recomputes every node from the full
fileLineCount and ignores the truncated flag, so the single-file leaf a
(one file of 2 symbols, full cost 4) is marked truncated but carries
aggregate 4, not 3·1 = 3, right after the recomputation.  The theorem
evaluates the code at this failing input. -/
theorem truncatedLines_reverted :
    findLargestLeaf bugTreeC1 = some [0] ∧
    (getNode (recalculateParentLines (truncateAt bugTreeC1 [0])) [0]).map dirNode.truncated
      = some true ∧
    (getNode (recalculateParentLines (truncateAt bugTreeC1 [0])) [0]).map
      (fun n => n.children.length) = some 0 ∧
    (getNode (recalculateParentLines (truncateAt bugTreeC1 [0])) [0]).map dirNode.lines
      = some 4 ∧
    (getNode (recalculateParentLines (truncateAt bugTreeC1 [0])) [0]).map
      (fun n => (n.files.length : Int) * truncatedFileLineCount) = some 3 := by
  refine ⟨by decide, by decide, by decide, by decide, by decide⟩

/-- C2: the planner's partitioning is not independent of the children
map's iteration order.  tieTreeAB and tieTreeBA hold the same directory
map (the same two children, listed in the two possible orders) with two
leaf directories tied at 22 lines; with budget 30, findLargestLeaf keeps
the first maximum it visits, so the first tree truncates a and the
second truncates b — two different partitions from the same logical
input.  The theorem evaluates the code at this failing input. -/
theorem tieBreak_order_dependent :
    buildDirTree [⟨"a/x.go".data, 20, false⟩, ⟨"b/y.go".data, 20, false⟩] optsDefault
      = tieTreeAB ∧
    buildDirTree [⟨"b/y.go".data, 20, false⟩, ⟨"a/x.go".data, 20, false⟩] optsDefault
      = tieTreeBA ∧
    tieTreeBA.children = tieTreeAB.children.reverse ∧
    pruneToLimit tieTreeAB 30 =
      [⟨"a/x.go".data, 20, true⟩, ⟨"b/y.go".data, 20, false⟩] ∧
    pruneToLimit tieTreeBA 30 =
      [⟨"a/x.go".data, 20, false⟩, ⟨"b/y.go".data, 20, true⟩] ∧
    pruneToLimit tieTreeAB 30 ≠ pruneToLimit tieTreeBA 30 := by
  refine ⟨rfl, rfl, rfl, by decide, by decide, by decide⟩

/-- C3: the file-level fallback does not restrict itself to files
outside truncated directories: pruneFilesToLimit collects every file
tree-wide.  On fallbackTreeC3 (main.go with cost 4 at the root, a/x.go
with cost 12 in directory a) and budget 5, the truncation phase marks a
truncated (total 7 > 5), and the fallback then drops a/x.go — a file
inside the truncated directory, which the claim says is never selected —
leaving main.go untouched.  The theorem evaluates the code at this
failing input. -/
theorem fileFallback_drops_truncated_dir_file :
    (getNode (pruneLoop (eligibleLeafCount fallbackTreeC3) fallbackTreeC3
        fallbackTreeC3.lines 5).1 [0]).map dirNode.truncated = some true ∧
    (pruneLoop (eligibleLeafCount fallbackTreeC3) fallbackTreeC3
        fallbackTreeC3.lines 5).2 = 7 ∧
    pruneToLimit fallbackTreeC3 5 = [⟨"main.go".data, 2, false⟩] := by
  refine ⟨by decide, by decide, by decide⟩

/-- C4 (counterexample): with a configured line budget of exactly 0 the
claim says pruning is skipped entirely; but FormatCodemap replaces a
zero limit with DefaultLineLimit = 1000, and a single file of 1000
symbols (cost 1002) in directory a does get truncated. -/
theorem zeroBudget_prunes :
    optsDefault.lineLimit = 0 ∧
    (formatCodemapFiles [⟨"a/x.go".data, 1000, false⟩] optsDefault).any
      (fun f => f.truncated) = true := by
  refine ⟨rfl, by decide⟩

/-- C4 (amended): if the configured line budget is strictly negative,
pruning is skipped entirely: the planner returns the plain collection of
the unpruned tree, no file is marked truncated, and the output files are
exactly the tree-eligible input files (a budget of exactly 0 is instead
replaced by the default limit 1000, and pruning may then occur). -/
theorem negativeBudget_noop (files : List FileIndex) (opts : FormatOptions)
    (hneg : opts.lineLimit < 0) (hun : ∀ f ∈ files, f.truncated = false) :
    formatCodemapFiles files opts = collectFiles (buildDirTree files opts) ∧
    (∀ g ∈ formatCodemapFiles files opts, g.truncated = false) ∧
    (formatCodemapFiles files opts).Perm (files.filter (treeEligible opts)) := by
  have hlim : effectiveLimit opts.lineLimit = opts.lineLimit := by
    unfold effectiveLimit
    rw [if_neg (by omega)]
  unfold formatCodemapFiles
  rw [hlim]
  have heq := pruneToLimit_eq_collect (buildDirTree files opts) opts.lineLimit
    (Or.inl (by omega))
  refine ⟨heq, ?_, ?_⟩
  · rw [heq]
    exact collectFiles_buildDirTree_untrunc files opts hun
  · rw [heq]
    exact collectFiles_buildDirTree_perm files opts

/-- C5: if any ancestor directory of the (normalized) path, taken in
root-to-leaf order and queried as a directory, is excluded by matchPath,
then Match returns true — for every rule set whatsoever, so no rule
matching the path itself, negated or not, can un-exclude it. -/
theorem ancestor_exclusion (m : Matcher) (path : List Char) (isDir : Bool) (i : Nat)
    (h1 : 1 ≤ i)
    (h2 : i < (splitOnStr (trimPrefixStr path "./".data) "/".data).length)
    (h3 : m.matchPath (joinStr "/".data
      ((splitOnStr (trimPrefixStr path "./".data) "/".data).take i)) true = true) :
    m.Match path isDir = true := by
  by_cases hl : m.patterns.length = 0
  · exfalso
    have hp : m.patterns = [] := List.length_eq_zero.mp hl
    unfold Matcher.matchPath at h3
    rw [hp] at h3
    simp at h3
  · have hany : (List.range
        (splitOnStr (trimPrefixStr path "./".data) "/".data).length).any
        (fun j => decide (1 ≤ j) && m.matchPath (joinStr "/".data
          ((splitOnStr (trimPrefixStr path "./".data) "/".data).take j)) true) = true := by
      rw [List.any_eq_true]
      exact ⟨i, List.mem_range.mpr h2, by simp [h1, h3]⟩
    unfold Matcher.Match
    rw [if_neg hl]
    simp only [hany, if_true]

/-- C7: for a path none of whose ancestors is excluded, the outcome is
decided by the last applicable matching rule in declaration order: the
path is excluded iff that rule is not negated. -/
theorem last_rule_wins (m : Matcher) (path : List Char) (isDir : Bool)
    (l1 l2 : List pattern) (r : pattern)
    (hdecomp : m.patterns = l1 ++ r :: l2)
    (hanc : ∀ i, 1 ≤ i →
      i < (splitOnStr (trimPrefixStr path "./".data) "/".data).length →
      m.matchPath (joinStr "/".data
        ((splitOnStr (trimPrefixStr path "./".data) "/".data).take i)) true = false)
    (hr : r.matches (trimPrefixStr path "./".data) isDir = true)
    (hlast : ∀ r' ∈ l2, r'.matches (trimPrefixStr path "./".data) isDir = false) :
    m.Match path isDir = !r.negation := by
  have hne : ¬ m.patterns.length = 0 := by
    rw [hdecomp]
    simp
  have hany : (List.range
      (splitOnStr (trimPrefixStr path "./".data) "/".data).length).any
      (fun j => decide (1 ≤ j) && m.matchPath (joinStr "/".data
        ((splitOnStr (trimPrefixStr path "./".data) "/".data).take j)) true) = false := by
    rw [List.any_eq_false]
    intro j hj
    rcases Nat.eq_zero_or_pos j with hj0 | hj1
    · subst hj0
      simp
    · simp only [Bool.and_eq_true, decide_eq_true_eq, not_and]
      intro _
      rw [hanc j hj1 (List.mem_range.mp hj)]
      simp
  unfold Matcher.Match
  rw [if_neg hne]
  simp only [hany, Bool.false_eq_true, if_false]
  exact matchPath_last m l1 l2 r _ isDir hdecomp hr hlast

/-- C6 (counterexample): the claim says the matcher accepts only when
the part of the pattern before the `**` simple-glob-matches the
candidate's start.  For pattern a/**/b the prefix part is a/ and it
simple-glob-matches no initial portion of the candidate ab/b (whose
length is 4); still the matcher accepts, because the code trims the
trailing / off the prefix and then performs only a literal
strings.HasPrefix check, which "a" passes against "ab/b". -/
theorem doublestar_accepts_without_glob_prefix :
    matchDoublestar "a/**/b".data "ab/b".data = true ∧
    splitOnStr "a/**/b".data "**".data = ["a/".data, "/b".data] ∧
    matchSimpleGlob "a/".data (("ab/b".data).take 0) = false ∧
    matchSimpleGlob "a/".data (("ab/b".data).take 1) = false ∧
    matchSimpleGlob "a/".data (("ab/b".data).take 2) = false ∧
    matchSimpleGlob "a/".data (("ab/b".data).take 3) = false ∧
    matchSimpleGlob "a/".data (("ab/b".data).take 4) = false := by
  refine ⟨by decide, by decide, by decide, by decide, by decide, by decide, by decide⟩

/-- C6 (amended): for every pattern whose split on `**` is exactly
[pre, rest] with pre non-empty, the matcher accepts iff the candidate
literally starts with pre minus any trailing slash (strings.HasPrefix,
not a simple-glob match), and, writing n for the candidate after
removing that literal prefix and at most one following slash and suf for
rest minus a leading slash: suf is empty, or suf simple-glob-matches n,
or suf simple-glob-matches one of the path-segment suffixes of n. -/
theorem doublestar_two_part_accept (pat name pre rest : List Char)
    (hsplit : splitOnStr pat "**".data = [pre, rest]) (hpre : pre ≠ []) :
    matchDoublestar pat name = true ↔
      (hasPrefixStr name (trimSuffixStr pre "/".data) = true ∧
        (trimPrefixStr rest "/".data = [] ∨
          matchSimpleGlob (trimPrefixStr rest "/".data)
            (trimPrefixStr (trimPrefixStr name (trimSuffixStr pre "/".data)) "/".data)
            = true ∨
          ∃ i, i < (splitOnStr (trimPrefixStr (trimPrefixStr name
              (trimSuffixStr pre "/".data)) "/".data) "/".data).length ∧
            matchSimpleGlob (trimPrefixStr rest "/".data)
              (joinStr "/".data ((splitOnStr (trimPrefixStr (trimPrefixStr name
                (trimSuffixStr pre "/".data)) "/".data) "/".data).drop i)) = true)) := by
  simp only [matchDoublestar, hsplit]
  rw [if_pos hpre]
  by_cases hsw : hasPrefixStr name (trimSuffixStr pre "/".data) = true
  · simp only [hsw, not_true_eq_false, if_false, true_and]
    by_cases hsuf : trimPrefixStr rest "/".data = []
    · simp [hsuf]
    · simp only [hsuf, if_false, false_or]
      by_cases hfull : matchSimpleGlob (trimPrefixStr rest "/".data)
          (trimPrefixStr (trimPrefixStr name (trimSuffixStr pre "/".data)) "/".data) = true
      · simp [hfull]
      · simp only [hfull, if_false, Bool.false_eq_true, false_or]
        rw [List.any_eq_true]
        constructor
        · rintro ⟨i, hi, hm⟩
          exact ⟨i, List.mem_range.mp hi, hm⟩
        · rintro ⟨i, hi, hm⟩
          exact ⟨i, List.mem_range.mpr hi, hm⟩
  · rw [if_pos hsw]
    exact ⟨fun h => (Bool.false_ne_true h).elim, fun h => absurd h.1 hsw⟩

/-- C8: when the total rendered cost of the built tree is within the
budget, the planner is a no-op: it returns the plain collection of the
unpruned tree, no returned file is marked truncated (so no truncation
notice is rendered), and the returned files are exactly the
tree-eligible input files — nothing is dropped. -/
theorem budgetPlanner_noop (files : List FileIndex) (opts : FormatOptions) (limit : Int)
    (hun : ∀ f ∈ files, f.truncated = false)
    (hle : (buildDirTree files opts).lines ≤ limit) :
    pruneToLimit (buildDirTree files opts) limit = collectFiles (buildDirTree files opts) ∧
    (∀ g ∈ pruneToLimit (buildDirTree files opts) limit, g.truncated = false) ∧
    (pruneToLimit (buildDirTree files opts) limit).Perm
      (files.filter (treeEligible opts)) := by
  have heq := pruneToLimit_eq_collect (buildDirTree files opts) limit (Or.inr hle)
  refine ⟨heq, ?_, ?_⟩
  · rw [heq]
    exact collectFiles_buildDirTree_untrunc files opts hun
  · rw [heq]
    exact collectFiles_buildDirTree_perm files opts

/-- C9: the truncation loop of pruneToLimit terminates.  Each iteration
that finds an eligible leaf strictly shrinks the number of eligible
leaves (second conjunct), so the loop reaches its exit condition within
eligibleLeafCount iterations: running the fuelled loop with any fuel at
least that bound gives the same result as with exactly that bound (first
conjunct); the file-dropping fallback then iterates over a fixed finite
entry list. -/
theorem pruneLoop_terminates (root : dirNode) (cur limit : Int) (m : Nat)
    (hm : eligibleLeafCount root ≤ m) :
    pruneLoop m root cur limit = pruneLoop (eligibleLeafCount root) root cur limit ∧
    (∀ addr, findLargestLeaf root = some addr →
      eligibleLeafCount (recalculateParentLines (truncateAt root addr)) <
        eligibleLeafCount root) := by
  constructor
  · exact pruneLoop_stable (eligibleLeafCount root) root cur limit m
      (eligibleLeafCount root) rfl hm le_rfl
  · intro addr hfind
    have h := eligibleLeafCount_truncate root addr hfind
    rw [eligibleLeafCount_recalc]
    omega

/-- C10: a file with no symbols that matches no skip pattern has
rendered cost 0, leaves the built directory tree unchanged (so it can
influence no truncation or dropping decision), and contributes no line —
no header, no blank — to the formatted output. -/
theorem emptyFile_contributes_nothing (l1 l2 : List FileIndex) (f : FileIndex)
    (opts : FormatOptions) (hsym : f.symbols = 0)
    (hskip : isSkipped f.path opts.skipPatterns = false) :
    fileLineCount f = 0 ∧
    buildDirTree (l1 ++ f :: l2) opts = buildDirTree (l1 ++ l2) opts ∧
    formatCodemapFiles (l1 ++ f :: l2) opts = formatCodemapFiles (l1 ++ l2) opts ∧
    formatCodemapLineCount (l1 ++ f :: l2) opts = formatCodemapLineCount (l1 ++ l2) opts := by
  have haddf : ∀ acc, addFile opts acc f = acc := by
    intro acc
    unfold addFile
    split_ifs <;> first
      | rfl
      | (exfalso; simp_all; done)
  have htree : buildDirTree (l1 ++ f :: l2) opts = buildDirTree (l1 ++ l2) opts := by
    unfold buildDirTree
    rw [List.foldl_append, List.foldl_append, List.foldl_cons, haddf]
  have hfiles : formatCodemapFiles (l1 ++ f :: l2) opts = formatCodemapFiles (l1 ++ l2) opts := by
    unfold formatCodemapFiles
    rw [htree]
  refine ⟨by simp [fileLineCount, hsym], htree, hfiles, ?_⟩
  unfold formatCodemapLineCount
  rw [hfiles]
  congr 2
  rw [List.filter_append, List.filter_append, List.filter_cons]
  simp [hskip]

/-! ## Witnesses -/

/-- Witness for negativeBudget_noop at one one-symbol file and a
configured budget of -1. -/
theorem negativeBudget_noop_witness :
    formatCodemapFiles [⟨"a.go".data, 1, false⟩] ⟨[], [], -1⟩ =
      collectFiles (buildDirTree [⟨"a.go".data, 1, false⟩] ⟨[], [], -1⟩) :=
  (negativeBudget_noop [⟨"a.go".data, 1, false⟩] ⟨[], [], -1⟩ (by decide) (by decide)).1

/-- Witness for ancestor_exclusion: a directory-only rule build/ with
the query build/out.bin, whose first ancestor build is excluded. -/
theorem ancestor_exclusion_witness :
    Matcher.Match ⟨[⟨"build".data, false, true, false, []⟩]⟩ "build/out.bin".data false
      = true :=
  ancestor_exclusion ⟨[⟨"build".data, false, true, false, []⟩]⟩ "build/out.bin".data false 1
    (by decide) (by decide) (by decide)

/-- Witness for doublestar_two_part_accept: src/**/test.go accepts
src/a/test.go via the segment suffix test.go of the remainder. -/
theorem doublestar_two_part_accept_witness :
    matchDoublestar "src/**/test.go".data "src/a/test.go".data = true :=
  (doublestar_two_part_accept "src/**/test.go".data "src/a/test.go".data
      "src/".data "/test.go".data (by decide) (by decide)).mpr
    ⟨by decide, Or.inr (Or.inr ⟨1, by decide, by decide⟩)⟩

/-- Witness for last_rule_wins: !important.log, declared after *.log,
decides the outcome for important.log. -/
theorem last_rule_wins_witness :
    Matcher.Match ⟨[⟨"*.log".data, false, false, false, []⟩,
      ⟨"important.log".data, true, false, false, []⟩]⟩ "important.log".data false = false := by
  have h := last_rule_wins ⟨[⟨"*.log".data, false, false, false, []⟩,
      ⟨"important.log".data, true, false, false, []⟩]⟩ "important.log".data false
    [⟨"*.log".data, false, false, false, []⟩] []
    ⟨"important.log".data, true, false, false, []⟩ rfl
    (by
      intro i h1 h2
      have hlen : (splitOnStr (trimPrefixStr "important.log".data "./".data) "/".data).length
          = 1 := by decide
      rw [hlen] at h2
      omega)
    (by decide) (by decide)
  exact h

/-- Witness for budgetPlanner_noop at one one-symbol file (tree cost 3)
and budget 50. -/
theorem budgetPlanner_noop_witness :
    pruneToLimit (buildDirTree [⟨"a.go".data, 1, false⟩] optsDefault) 50 =
      collectFiles (buildDirTree [⟨"a.go".data, 1, false⟩] optsDefault) :=
  (budgetPlanner_noop [⟨"a.go".data, 1, false⟩] optsDefault 50 (by decide) (by decide)).1

/-- Witness for pruneLoop_terminates on the two-directory tree with two
eligible leaves and fuel 5. -/
theorem pruneLoop_terminates_witness :
    pruneLoop 5 tieTreeAB 44 30 =
      pruneLoop (eligibleLeafCount tieTreeAB) tieTreeAB 44 30 :=
  (pruneLoop_terminates tieTreeAB 44 30 5 (by decide)).1

/-- Witness for emptyFile_contributes_nothing: a symbol-less a.go next
to a one-symbol b.go. -/
theorem emptyFile_contributes_nothing_witness :
    fileLineCount ⟨"a.go".data, 0, false⟩ = 0 ∧
    buildDirTree ([] ++ ⟨"a.go".data, 0, false⟩ :: [⟨"b.go".data, 1, false⟩]) optsDefault =
      buildDirTree ([] ++ [⟨"b.go".data, 1, false⟩]) optsDefault ∧
    formatCodemapFiles ([] ++ ⟨"a.go".data, 0, false⟩ :: [⟨"b.go".data, 1, false⟩]) optsDefault =
      formatCodemapFiles ([] ++ [⟨"b.go".data, 1, false⟩]) optsDefault ∧
    formatCodemapLineCount ([] ++ ⟨"a.go".data, 0, false⟩ :: [⟨"b.go".data, 1, false⟩])
        optsDefault =
      formatCodemapLineCount ([] ++ [⟨"b.go".data, 1, false⟩]) optsDefault :=
  emptyFile_contributes_nothing [] [⟨"b.go".data, 1, false⟩] ⟨"a.go".data, 0, false⟩
    optsDefault (by decide) (by decide)

/-! ## Sanity checks

Concrete evaluations mirroring the test expectations of the repository
and the scenarios of the specification. -/

example : splitOnStr "a/b".data "/".data = ["a".data, "b".data] := by decide
example : splitOnStr "".data "/".data = [[]] := by decide
example : splitOnStr "aa".data "aa".data = [[], []] := by decide
example : splitOnStr "a**b**c".data "**".data = ["a".data, "b".data, "c".data] := by decide
example : trimSuffixStr "a/".data "/".data = "a".data := by decide
example : joinStr "/".data ["a".data, "b".data] = "a/b".data := by decide
example : matchSimpleGlob "*.go".data "main.go".data = true := by decide
example : matchSimpleGlob "*.go".data "src/main.go".data = false := by decide
example : matchSimpleGlob "?.go".data "ab.go".data = false := by decide
example : matchSimpleGlob "test*".data "test_file.go".data = true := by decide
example : matchDoublestar "**/*.go".data "src/pkg/main.go".data = true := by decide
example : matchDoublestar "**/*.go".data "main.py".data = false := by decide
example : matchDoublestar "src/**".data "src/pkg/file.go".data = true := by decide
example : matchDoublestar "src/**/test.go".data "src/a/b/test.go".data = true := by decide
example : matchDoublestar "a/**/b".data "ab/b".data = true := by decide
example : Matcher.Match ⟨[⟨"build".data, false, true, false, []⟩]⟩ "build/out.bin".data false = true := by
  decide
example : Matcher.Match ⟨[⟨"*.log".data, false, false, false, []⟩, ⟨"important.log".data, true, false, false, []⟩]⟩ "important.log".data false = false := by
  decide
example : Matcher.Match ⟨[⟨"*.tmp".data, false, false, false, "pkg".data⟩]⟩ "pkg/cache.tmp".data false = true := by
  decide
example : Matcher.Match ⟨[⟨"*.tmp".data, false, false, false, "pkg".data⟩]⟩ "cache.tmp".data false = false := by
  decide
example : Matcher.Match ⟨[⟨"root-only.txt".data, false, false, true, []⟩]⟩ "src/root-only.txt".data false = false := by
  decide

example : parseLine "".data [] = none := by decide
example : parseLine "# comment".data [] = none := by decide
example : parseLine "  ".data [] = none := by decide
example : parseLine "*.log".data [] = some ⟨"*.log".data, false, false, false, []⟩ := by decide
example : parseLine "!important.log".data [] =
    some ⟨"important.log".data, true, false, false, []⟩ := by decide
example : parseLine "build/".data [] = some ⟨"build".data, false, true, false, []⟩ := by decide
example : parseLine "/root.txt".data [] =
    some ⟨"root.txt".data, false, false, true, []⟩ := by decide
example : parseLine "src/main.go".data [] =
    some ⟨"src/main.go".data, false, false, true, []⟩ := by decide
example : parseLine "*.pyc".data "subdir".data =
    some ⟨"*.pyc".data, false, false, false, "subdir".data⟩ := by decide

example : gitignoreExample.Match "build".data true = true := by decide
example : gitignoreExample.Match "build/output.exe".data false = true := by decide
example : gitignoreExample.Match "dist".data true = true := by decide
example : gitignoreExample.Match "src/dist".data true = true := by decide
example : gitignoreExample.Match "debug.log".data false = true := by decide
example : gitignoreExample.Match "src/debug.log".data false = true := by decide
example : gitignoreExample.Match "important.log".data false = false := by decide
example : gitignoreExample.Match "root-only.txt".data false = true := by decide
example : gitignoreExample.Match "src/root-only.txt".data false = false := by decide
example : gitignoreExample.Match "src/generated".data true = true := by decide
example : gitignoreExample.Match "other/generated".data true = false := by decide
example : gitignoreExample.Match "pkg/cache.tmp".data false = true := by decide
example : gitignoreExample.Match "cache.tmp".data false = false := by decide
example : gitignoreExample.Match "main.go".data false = false := by decide
example : gitignoreExample.Match "src/main.go".data false = false := by decide

example : fileLineCount ⟨"f.go".data, 0, false⟩ = 0 := by decide
example : fileLineCount ⟨"f.go".data, 1, false⟩ = 3 := by decide
example : fileLineCount ⟨"f.go".data, 5, false⟩ = 7 := by decide

example : matchesFilter "cmd/main.go".data "cmd".data = true := by decide
example : matchesFilter "cmd/main.go".data "cmd/".data = true := by decide
example : matchesFilter "cmd/main.go".data "cmd/main.go".data = true := by decide
example : matchesFilter "cmd/sub/main.go".data "cmd".data = true := by decide
example : matchesFilter "pkg/main.go".data "cmd".data = false := by decide
example : matchesFilter "cmdx/main.go".data "cmd".data = false := by decide
example : matchesFilter "./cmd/main.go".data "cmd".data = true := by decide
example : matchesFilter "cmd/main.go".data "./cmd".data = true := by decide

example : isSkipped "vendor/lib.go".data ["vendor".data, "internal/gen".data] = true := by decide
example : isSkipped "vendor/sub/lib.go".data ["vendor".data, "internal/gen".data] = true := by
  decide
example : isSkipped "internal/gen/types.go".data ["vendor".data, "internal/gen".data] = true := by
  decide
example : isSkipped "internal/other/types.go".data ["vendor".data, "internal/gen".data]
    = false := by decide
example : isSkipped "vendorx/lib.go".data ["vendor".data, "internal/gen".data] = false := by decide
example : isSkipped "main.go".data ["vendor".data, "internal/gen".data] = false := by decide

example : pruneToLimit (buildDirTree
    [⟨"small/a.go".data, 2, false⟩, ⟨"large/b.go".data, 20, false⟩,
     ⟨"medium/c.go".data, 10, false⟩] optsDefault) 20 =
    [⟨"large/b.go".data, 20, true⟩, ⟨"medium/c.go".data, 10, false⟩,
     ⟨"small/a.go".data, 2, false⟩] := by decide
